import Mathlib

/-!
Shallow embedding of `src/mlpack/methods/rann/ra_util.cpp` (utilities for
rank-approximate nearest-neighbor search in mlpack 2.0.1).

`double` arithmetic of the source is modelled exactly over `ℚ`; `size_t`
over `ℕ` (every claim keeps the source's subtractions in range, so truncated
subtraction agrees with the machine value).  The unbounded `do … while` of
`MinimumSamplesReqd` is embedded as a step function iterated on explicit
fuel; running out of fuel is reported as a distinguished `timeout` value,
and a theorem below exhibits an input on which no amount of fuel suffices.
-/

namespace RAUtil

/-- Embedding of the inner `for (i = 2; i <= jTrans; i++)` loop of
`SuccessProbability`: `mCj` starts at `(double) m` and iteration `i`
multiplies by `(m - (i - 1))` and divides by `i`, so that after the loop
`mCj = Choose(m, jTrans)`.  The argument is `jTrans` (the loop bound). -/
def chooseIter (m : ℕ) : ℕ → ℚ
  | 0 => (m : ℚ)
  | 1 => (m : ℚ)
  | r + 2 => chooseIter m (r + 1) * ((m - (r + 1) : ℕ) : ℚ) / ((r + 2 : ℕ) : ℚ)

/-- Embedding of `RAUtil::SuccessProbability(n, k, m, t)` from `ra_util.cpp`.
The branch structure, the choice between the direct (`j = k … m-1` plus
`eps^m`) and the complement (`j = 1 … k-1` plus `(1-eps)^m`, subtracted
from `1`) summation, and the incremental binomial coefficients follow the
source line by line. -/
def SuccessProbability (n k m t : ℕ) : ℚ :=
  if k = 1 then
    if n - t < m then 1
    else 1 - (1 - (t : ℚ) / (n : ℚ)) ^ m
  else
    if m < k then 0
    else if n - t + k - 1 < m then 1
    else
      let eps : ℚ := (t : ℚ) / (n : ℚ)
      if 2 * k < m then
        1 - ((1 - eps) ^ m +
          ∑ j in Finset.Ico 1 k, chooseIter m j * eps ^ j * (1 - eps) ^ (m - j))
      else
        eps ^ m +
          ∑ j in Finset.Ico k m, chooseIter m (m - j) * eps ^ j * (1 - eps) ^ (m - j)

/-- The mutable locals of the `do … while` loop of `MinimumSamplesReqd`. -/
structure SearchState where
  lb : ℕ
  ub : ℕ
  m : ℕ
deriving DecidableEq

/-- One iteration of the `do … while` loop of `MinimumSamplesReqd`:
`Sum.inr m` models `break` (exit with current `m`), `Sum.inl s` models
falling through to the next iteration with updated locals.  The
`m == lb` branch models the `continue` that skips the midpoint update. -/
def msrStep (n k t : ℕ) (alpha : ℚ) (s : SearchState) : SearchState ⊕ ℕ :=
  let prob := SuccessProbability n k s.m t
  if alpha < prob then
    if prob - alpha < 1 / 1000 ∨ s.ub < s.lb + 2 then Sum.inr s.m
    else Sum.inl ⟨s.lb, s.m, (s.m + s.lb) / 2⟩
  else if prob < alpha then
    if s.m = s.lb then Sum.inl ⟨s.lb, s.ub, s.m + 1⟩
    else Sum.inl ⟨s.m, s.ub, (s.ub + s.m) / 2⟩
  else Sum.inr s.m

/-- Fueled iteration of `msrStep`; `none` means the fuel ran out before the
loop exited. -/
def msrLoop (n k t : ℕ) (alpha : ℚ) : ℕ → SearchState → Option ℕ
  | 0, _ => none
  | fuel + 1, s =>
    match msrStep n k t alpha s with
    | Sum.inr m => some m
    | Sum.inl s₂ => msrLoop n k t alpha fuel s₂

/-- Result of a call of `MinimumSamplesReqd`: the fatal assertion fired, the
fuel ran out, or the function returned `m`. -/
inductive MSRResult where
  | assertFailed
  | timeout
  | ok (m : ℕ)
deriving DecidableEq

/-- Embedding of `RAUtil::MinimumSamplesReqd(n, k, tau, alpha)` from
`ra_util.cpp`.  Modelled from the spec: `Log::Assert` (declared outside
`src/`) aborts the operation fatally when its condition is false, which is
modelled by the `assertFailed` result.  The rank approximation is
`t = ceil(tau * n / 100)` and the loop starts from `lb = k`, `ub = n`,
`m = lb`; on exit the function returns `min(m + 1, n)`. -/
def MinimumSamplesReqd (n k : ℕ) (tau alpha : ℚ) (fuel : ℕ) : MSRResult :=
  if alpha ≤ 1 then
    match msrLoop n k (Nat.ceil (tau * (n : ℚ) / 100)) alpha fuel ⟨k, n, k⟩ with
    | some m => MSRResult.ok (min (m + 1) n)
    | none => MSRResult.timeout
  else MSRResult.assertFailed

/-- One iteration of the solver loop as the spec words it (steps 1–5 of
§4.2): evaluate `prob`; if `prob > alpha` exit when `prob - alpha < 0.001`
or when `ub < lb + 2`, else tighten `ub = m`; if `prob < alpha` and
`m == lb` increment `m` by one and re-evaluate without touching `lb`/`ub`;
if `prob < alpha` and `m != lb` set `lb = m`; if `prob == alpha` exit;
otherwise continue from `m = floor((ub + lb) / 2)`. -/
def specSolverStep (n k t : ℕ) (alpha : ℚ) (lb ub m : ℕ) : (ℕ × ℕ × ℕ) ⊕ ℕ :=
  let prob := SuccessProbability n k m t
  if prob > alpha then
    if prob - alpha < 1 / 1000 then Sum.inr m
    else if ub < lb + 2 then Sum.inr m
    else Sum.inl (lb, m, (m + lb) / 2)
  else if prob < alpha then
    if m = lb then Sum.inl (lb, ub, m + 1)
    else Sum.inl (m, ub, (ub + m) / 2)
  else Sum.inr m

/-- Fueled iteration of `specSolverStep`. -/
def specSolverLoop (n k t : ℕ) (alpha : ℚ) : ℕ → ℕ × ℕ × ℕ → Option ℕ
  | 0, _ => none
  | fuel + 1, (lb, ub, m) =>
    match specSolverStep n k t alpha lb ub m with
    | Sum.inr m₂ => some m₂
    | Sum.inl s₂ => specSolverLoop n k t alpha fuel s₂

/-- The sample-size solver exactly as the spec describes it: the
`alpha ≤ 1` precondition is a fatal assertion, `t = ceil(tau * n / 100)`,
the loop of `specSolverStep` starts from `lb = k`, `ub = n`, `m = k`, and
the returned value is `min(m + 1, n)`. -/
def minimumSamplesReqdSpec (n k : ℕ) (tau alpha : ℚ) (fuel : ℕ) : MSRResult :=
  if alpha ≤ 1 then
    match specSolverLoop n k (Nat.ceil (tau * (n : ℚ) / 100)) alpha fuel (k, n, k) with
    | some m => MSRResult.ok (min (m + 1) n)
    | none => MSRResult.timeout
  else MSRResult.assertFailed

/-- Embedding of the tally loop of `ObtainDistinctSamples`.  The Armadillo
vector `sampledPoints` (zero-initialised to length `rangeUpperBound`) is
represented by its index-to-count function; `draws` is the list of values
produced by the `numSamples` calls of `math::RandInt(rangeUpperBound)`.
Modelled from the spec: `math::RandInt` (declared outside `src/`) draws a
uniform random integer in `[0, rangeUpperBound)`, so a draw outside the
vector — possible only for `rangeUpperBound = 0`, when no valid index
exists — is out-of-bounds indexing, i.e. undefined behaviour, modelled as
`none`. -/
def tallyLoop (rangeUpperBound : ℕ) : List ℕ → (ℕ → ℕ) → Option (ℕ → ℕ)
  | [], sampledPoints => some sampledPoints
  | d :: rest, sampledPoints =>
    if d < rangeUpperBound then
      tallyLoop rangeUpperBound rest
        (Function.update sampledPoints d (sampledPoints d + 1))
    else none

/-- Embedding of `RAUtil::ObtainDistinctSamples(numSamples, rangeUpperBound,
distinctSamples)` from `ra_util.cpp`.  `draws` is the sequence of random
values consumed, `distinctSamples` the previous contents of the output
parameter (wholly overwritten by `distinctSamples = arma::find(...)`).
`arma::find(sampledPoints > 0)` lists, in increasing order, the indices of
the vector whose tally is positive. -/
def ObtainDistinctSamples (numSamples rangeUpperBound : ℕ) (draws : List ℕ)
    (distinctSamples : List ℕ) : Option (List ℕ) :=
  if draws.length = numSamples then
    match tallyLoop rangeUpperBound draws (fun _ => 0) with
    | some sampledPoints =>
      some ((List.range rangeUpperBound).filter (fun i => decide (0 < sampledPoints i)))
    | none => none
  else none

/-- Loop invariant of the solver search used for the termination and
post-condition analysis: the probe stays between the bounds, the success
probability at the upper bound has already reached `alpha`, and the probe
touches the upper bound only when the bracket is already closing. -/
def SolverInv (n k t : ℕ) (alpha : ℚ) (s : SearchState) : Prop :=
  s.lb ≤ s.m ∧ s.m ≤ s.ub ∧
    alpha ≤ SuccessProbability n k s.ub t ∧
    (s.m = s.ub → s.ub < s.lb + 2)

/-- Termination measure for the solver loop: the bracket width weighted by
`n + 1`, plus the distance of the probe below `n`. -/
def msrMeasure (n : ℕ) (s : SearchState) : ℕ :=
  (s.ub - s.lb) * (n + 1) + (n - s.m) + 1

/-! ### Basic facts about the probability model -/

/-- The incremental product loop computes the binomial coefficient:
after the iterations `i = 2 … r` (for `1 ≤ r ≤ m`), `mCj = Choose(m, r)`. -/
theorem chooseIter_eq_choose (m : ℕ) :
    ∀ r, 1 ≤ r → r ≤ m → chooseIter m r = (m.choose r : ℚ)
  | 0, h, _ => absurd h (by omega)
  | 1, _, _ => by
    rw [chooseIter, Nat.choose_one_right]
  | r + 2, _, h => by
    have ih := chooseIter_eq_choose m (r + 1) (by omega) (by omega)
    have hne : ((r + 2 : ℕ) : ℚ) ≠ 0 := by positivity
    rw [chooseIter, ih, div_eq_iff hne]
    have hnat : m.choose (r + 2) * (r + 2) = m.choose (r + 1) * (m - (r + 1)) :=
      Nat.choose_succ_right_eq m (r + 1)
    exact_mod_cast hnat.symm

/-- The full binomial sum is `1` (instance of the binomial theorem). -/
theorem binomial_sum_eq_one (p : ℚ) (m : ℕ) :
    ∑ j in Finset.range (m + 1), (m.choose j : ℚ) * p ^ j * (1 - p) ^ (m - j) = 1 := by
  have h := add_pow p (1 - p) m
  have hp : p + (1 - p) = 1 := by ring
  rw [hp, one_pow] at h
  calc ∑ j in Finset.range (m + 1), (m.choose j : ℚ) * p ^ j * (1 - p) ^ (m - j)
      = ∑ j in Finset.range (m + 1), p ^ j * (1 - p) ^ (m - j) * (m.choose j : ℚ) :=
        Finset.sum_congr rfl fun j _ => by ring
    _ = 1 := h.symm

/-- Complement identity: one minus the lower part of the binomial sum
(term `j = 0` written as `(1-p)^m`) is the right tail from `k`. -/
theorem one_sub_head_eq_tail (p : ℚ) (k m : ℕ) (hk : 1 ≤ k) (hkm : k ≤ m) :
    1 - ((1 - p) ^ m + ∑ j in Finset.Ico 1 k, (m.choose j : ℚ) * p ^ j * (1 - p) ^ (m - j))
      = ∑ j in Finset.Icc k m, (m.choose j : ℚ) * p ^ j * (1 - p) ^ (m - j) := by
  set f : ℕ → ℚ := fun j => (m.choose j : ℚ) * p ^ j * (1 - p) ^ (m - j) with hf
  have hall : ∑ j in Finset.range (m + 1), f j = 1 := binomial_sum_eq_one p m
  have hsplit : ∑ j in Finset.Ico 0 k, f j + ∑ j in Finset.Ico k (m + 1), f j
      = ∑ j in Finset.Ico 0 (m + 1), f j :=
    Finset.sum_Ico_consecutive f (Nat.zero_le k) (by omega)
  have hhead : ∑ j in Finset.Ico 0 1, f j + ∑ j in Finset.Ico 1 k, f j
      = ∑ j in Finset.Ico 0 k, f j :=
    Finset.sum_Ico_consecutive f (Nat.zero_le 1) hk
  have h01 : ∑ j in Finset.Ico 0 1, f j = (1 - p) ^ m := by
    simp [hf]
  have hr : ∑ j in Finset.Ico 0 (m + 1), f j = 1 := by
    rw [← Finset.range_eq_Ico]; exact hall
  have hIcc : Finset.Icc k m = Finset.Ico k (m + 1) := (Nat.Ico_succ_right k m).symm
  rw [hIcc]
  linarith

/-- The direct summation (terms `j = k … m-1` plus the separate `p^m`) is the
right tail from `k`. -/
theorem head_term_add_eq_tail (p : ℚ) (k m : ℕ) (hkm : k ≤ m) :
    p ^ m + ∑ j in Finset.Ico k m, (m.choose j : ℚ) * p ^ j * (1 - p) ^ (m - j)
      = ∑ j in Finset.Icc k m, (m.choose j : ℚ) * p ^ j * (1 - p) ^ (m - j) := by
  set f : ℕ → ℚ := fun j => (m.choose j : ℚ) * p ^ j * (1 - p) ^ (m - j) with hf
  have hIcc : Finset.Icc k m = Finset.Ico k (m + 1) := (Nat.Ico_succ_right k m).symm
  have htop : ∑ j in Finset.Ico k (m + 1), f j = (∑ j in Finset.Ico k m, f j) + f m :=
    Finset.sum_Ico_succ_top hkm f
  have hfm : f m = p ^ m := by
    simp [hf]
  rw [hIcc, htop, hfm]
  ring

/-- Saturation of the `k = 1` fast path: strictly above `n - t` the source
returns the literal `1.0`. -/
theorem sp_one_of_k1 (n m t : ℕ) (hm : n - t < m) :
    SuccessProbability n 1 m t = 1 := by
  simp [SuccessProbability, hm]

/-- Saturation of the general path: strictly above `n - t + k - 1` the source
returns the literal `1.0` (for `k > 1` and `t ≤ n` the earlier `m < k` guard
cannot fire there). -/
theorem sp_one_of_sat (n k m t : ℕ) (hk : 1 < k) (ht : t ≤ n)
    (hm : n - t + k - 1 < m) : SuccessProbability n k m t = 1 := by
  have hk1 : k ≠ 1 := by omega
  have hmk : ¬ m < k := by omega
  simp [SuccessProbability, hk1, hmk, hm]

/-- C1: for `1 ≤ k ≤ n` and `0 ≤ t ≤ n`, `SuccessProbability(n, k, m, t)`
returns: for `k = 1`, exactly `1` when `m > n - t` and `1 - (1 - t/n)^m`
otherwise; for `k > 1`, exactly `0` when `m < k`, exactly `1` when
`m > n - t + k - 1`, and otherwise the binomial right tail
`Σ_{j=k}^{m} C(m,j) (t/n)^j (1 - t/n)^(m-j)` — which the source computes by
the shorter of the direct and the complement summation, chosen by whether
`2k < m`; over exact rationals (the embedding of the `double` arithmetic)
both summations produce exactly the tail. -/
theorem successProbability_spec (n k m t : ℕ) (hk : 1 ≤ k) (hkn : k ≤ n) (ht : t ≤ n) :
    SuccessProbability n k m t =
      if k = 1 then
        if n - t < m then 1 else 1 - (1 - (t : ℚ) / n) ^ m
      else if m < k then 0
      else if n - t + k - 1 < m then 1
      else ∑ j in Finset.Icc k m,
        (m.choose j : ℚ) * ((t : ℚ) / n) ^ j * (1 - (t : ℚ) / n) ^ (m - j) := by
  by_cases hk1 : k = 1
  · simp [SuccessProbability, hk1]
  · by_cases hmk : m < k
    · simp [SuccessProbability, hk1, hmk]
    · by_cases hsat : n - t + k - 1 < m
      · simp [SuccessProbability, hk1, hmk, hsat]
      · have hkm : k ≤ m := by omega
        set p : ℚ := (t : ℚ) / n with hp
        by_cases h2k : 2 * k < m
        · have hcongr : ∑ j in Finset.Ico 1 k, chooseIter m j * p ^ j * (1 - p) ^ (m - j)
              = ∑ j in Finset.Ico 1 k, (m.choose j : ℚ) * p ^ j * (1 - p) ^ (m - j) := by
            refine Finset.sum_congr rfl fun j hj => ?_
            rw [Finset.mem_Ico] at hj
            rw [chooseIter_eq_choose m j hj.1 (by omega)]
          simp only [SuccessProbability, if_neg hk1, if_neg hmk, if_neg hsat, if_pos h2k]
          rw [hcongr, one_sub_head_eq_tail p k m hk hkm]
        · have hcongr : ∑ j in Finset.Ico k m, chooseIter m (m - j) * p ^ j * (1 - p) ^ (m - j)
              = ∑ j in Finset.Ico k m, (m.choose j : ℚ) * p ^ j * (1 - p) ^ (m - j) := by
            refine Finset.sum_congr rfl fun j hj => ?_
            rw [Finset.mem_Ico] at hj
            rw [chooseIter_eq_choose m (m - j) (by omega) (by omega),
              Nat.choose_symm (by omega : j ≤ m)]
          simp only [SuccessProbability, if_neg hk1, if_neg hmk, if_neg hsat, if_neg h2k]
          rw [hcongr, head_term_add_eq_tail p k m hkm]

/-- Witness for C1 at `n = 5`, `k = 2`, `m = 3`, `t = 2` (non-saturated
general branch): the embedded code value equals the claimed binomial tail. -/
theorem successProbability_spec_witness :
    SuccessProbability 5 2 3 2 =
      if (2 : ℕ) = 1 then
        if 5 - 2 < 3 then 1 else 1 - (1 - (2 : ℚ) / 5) ^ 3
      else if 3 < 2 then 0
      else if 5 - 2 + 2 - 1 < 3 then 1
      else ∑ j in Finset.Icc 2 3,
        ((3 : ℕ).choose j : ℚ) * ((2 : ℚ) / 5) ^ j * (1 - (2 : ℚ) / 5) ^ (3 - j) :=
  successProbability_spec 5 2 3 2 (by omega) (by omega) (by omega)

/-- C4 counterexample: saturation does NOT hold at the boundary `m = n - t`
for `k = 1`: at `n = 2`, `t = 1`, `m = 1` the source takes the
`1 - (1 - eps)^m` branch and returns `1/2`, not `1`. -/
theorem sp_boundary_counterexample :
    ¬ (∀ n t m : ℕ, t ≤ n → n - t ≤ m → SuccessProbability n 1 m t = 1) := by
  intro h
  have h2 := h 2 1 1 (by omega) (by omega)
  have : SuccessProbability 2 1 1 1 = 1 / 2 := by with_unfolding_all rfl
  rw [this] at h2
  exact absurd h2 (by norm_num)

/-- C4 (amended): saturation holds strictly above the boundary: for
`0 ≤ t ≤ n`, `SuccessProbability(n, 1, m, t) = 1` for all `m > n - t`, and
for `k > 1`, `SuccessProbability(n, k, m, t) = 1` for all
`m > n - t + k - 1`. -/
theorem sp_saturation (n k m t : ℕ) (ht : t ≤ n) :
    (k = 1 → n - t < m → SuccessProbability n k m t = 1) ∧
    (1 < k → n - t + k - 1 < m → SuccessProbability n k m t = 1) := by
  constructor
  · intro hk1 hm
    subst hk1
    exact sp_one_of_k1 n m t hm
  · intro hk hm
    exact sp_one_of_sat n k m t hk ht hm

/-- Witness for C4 at `n = 3`, `t = 1`: strictly past the boundary both the
`k = 1` and the `k = 2` paths return `1`. -/
theorem sp_saturation_witness :
    SuccessProbability 3 1 3 1 = 1 ∧ SuccessProbability 3 2 4 1 = 1 :=
  ⟨(sp_saturation 3 1 3 1 (by omega)).1 rfl (by omega),
   (sp_saturation 3 2 4 1 (by omega)).2 (by omega) (by omega)⟩

/-- C6: for `n ≥ 1` and `0 ≤ t ≤ n`, `m ↦ SuccessProbability(n, 1, m, t)` is
non-decreasing on all of `ℕ`, and its value at `m = 0` is `0`. -/
theorem sp_k1_monotone_and_zero (n t : ℕ) (hn : 1 ≤ n) (ht : t ≤ n) :
    Monotone (fun m => SuccessProbability n 1 m t) ∧
      SuccessProbability n 1 0 t = 0 := by
  have hn0 : (0 : ℚ) < n := by exact_mod_cast hn
  have heps0 : (0 : ℚ) ≤ (t : ℚ) / n := by positivity
  have heps1 : (t : ℚ) / n ≤ 1 := by
    rw [div_le_one hn0]
    exact_mod_cast ht
  have hq0 : (0 : ℚ) ≤ 1 - (t : ℚ) / n := by linarith
  have hq1 : 1 - (t : ℚ) / n ≤ 1 := by linarith
  constructor
  · apply monotone_nat_of_le_succ
    intro m
    show SuccessProbability n 1 m t ≤ SuccessProbability n 1 (m + 1) t
    by_cases h1 : n - t < m
    · have h2 : n - t < m + 1 := by omega
      simp [SuccessProbability, h1, h2]
    · have e1 : SuccessProbability n 1 m t = 1 - (1 - (t : ℚ) / n) ^ m := by
        simp [SuccessProbability, h1]
      by_cases h2 : n - t < m + 1
      · have e2 : SuccessProbability n 1 (m + 1) t = 1 := by
          simp [SuccessProbability, h2]
        have hpow : (0 : ℚ) ≤ (1 - (t : ℚ) / n) ^ m := pow_nonneg hq0 m
        rw [e1, e2]
        linarith
      · have e2 : SuccessProbability n 1 (m + 1) t = 1 - (1 - (t : ℚ) / n) ^ (m + 1) := by
          simp [SuccessProbability, h2]
        have hpow : (1 - (t : ℚ) / n) ^ (m + 1) ≤ (1 - (t : ℚ) / n) ^ m :=
          pow_le_pow_of_le_one hq0 hq1 (by omega)
        rw [e1, e2]
        linarith
  · simp [SuccessProbability]

/-- Witness for C6 at `n = 3`, `t = 1`: the value at `m = 0` is `0` and the
probability at `m = 2` is at most the one at `m = 5`. -/
theorem sp_k1_monotone_and_zero_witness :
    SuccessProbability 3 1 0 1 = 0 ∧
      SuccessProbability 3 1 2 1 ≤ SuccessProbability 3 1 5 1 :=
  ⟨(sp_k1_monotone_and_zero 3 1 (by omega) (by omega)).2,
   (sp_k1_monotone_and_zero 3 1 (by omega) (by omega)).1 (by omega : (2 : ℕ) ≤ 5)⟩

/-! ### The sample-size solver: refinement against the spec's loop -/

/-- One spec-side step agrees with one source-side step (up to the packaging
of the three mutable locals). -/
theorem specStep_eq_msrStep (n k t : ℕ) (alpha : ℚ) (lb ub m : ℕ) :
    specSolverStep n k t alpha lb ub m =
      match msrStep n k t alpha ⟨lb, ub, m⟩ with
      | Sum.inl s => Sum.inl (s.lb, s.ub, s.m)
      | Sum.inr r => Sum.inr r := by
  simp only [specSolverStep, msrStep]
  split_ifs <;> simp_all
  rename_i hprob hfar hwide hor
  rcases hor with h | h
  · linarith
  · omega

/-- The spec-side loop agrees with the source-side loop at every fuel. -/
theorem specSolverLoop_eq_msrLoop (n k t : ℕ) (alpha : ℚ) :
    ∀ fuel lb ub m, specSolverLoop n k t alpha fuel (lb, ub, m)
      = msrLoop n k t alpha fuel ⟨lb, ub, m⟩
  | 0, _, _, _ => rfl
  | fuel + 1, lb, ub, m => by
    show (match specSolverStep n k t alpha lb ub m with
      | Sum.inr m₂ => some m₂
      | Sum.inl s₂ => specSolverLoop n k t alpha fuel s₂)
      = match msrStep n k t alpha ⟨lb, ub, m⟩ with
      | Sum.inr m₂ => some m₂
      | Sum.inl s₂ => msrLoop n k t alpha fuel s₂
    rw [specStep_eq_msrStep]
    cases hstep : msrStep n k t alpha ⟨lb, ub, m⟩ with
    | inl s => exact specSolverLoop_eq_msrLoop n k t alpha fuel s.lb s.ub s.m
    | inr r => rfl

/-- C2: `MinimumSamplesReqd` computes its result by exactly the loop the
spec describes — same `t = ceil(tau*n/100)`, same initial `lb = k`,
`ub = n`, `m = k`, same branch structure (including the `m == lb`
increment-and-re-evaluate special case), same `min(m + 1, n)` return. -/
theorem minimumSamplesReqd_refines_spec (n k : ℕ) (tau alpha : ℚ) (fuel : ℕ) :
    MinimumSamplesReqd n k tau alpha fuel = minimumSamplesReqdSpec n k tau alpha fuel := by
  unfold MinimumSamplesReqd minimumSamplesReqdSpec
  by_cases h : alpha ≤ 1
  · simp only [if_pos h, specSolverLoop_eq_msrLoop]
  · simp [h]

/-! ### The sample-size solver: exit and step characterisation -/

/-- When the loop body exits (`break` or the `prob == alpha` fall-through),
it exits with the current probe, whose success probability has reached
`alpha`. -/
theorem msrStep_inr (n k t : ℕ) (alpha : ℚ) (s : SearchState) (r : ℕ)
    (h : msrStep n k t alpha s = Sum.inr r) :
    r = s.m ∧ alpha ≤ SuccessProbability n k s.m t := by
  simp only [msrStep] at h
  split_ifs at h with h1 h2 h3 h4 <;>
    first
      | exact Sum.noConfusion h
      | exact ⟨(Sum.inr.inj h).symm, le_of_lt h1⟩
      | exact ⟨(Sum.inr.inj h).symm, le_of_not_lt h3⟩

/-- The three ways the loop body can fall through to another iteration:
tightening `ub`, the `m == lb` increment, or raising `lb`. -/
theorem msrStep_inl_cases (n k t : ℕ) (alpha : ℚ) (s s₂ : SearchState)
    (h : msrStep n k t alpha s = Sum.inl s₂) :
    (alpha < SuccessProbability n k s.m t ∧
      ¬ (SuccessProbability n k s.m t - alpha < 1 / 1000 ∨ s.ub < s.lb + 2) ∧
      s₂ = ⟨s.lb, s.m, (s.m + s.lb) / 2⟩) ∨
    (SuccessProbability n k s.m t < alpha ∧ s.m = s.lb ∧
      s₂ = ⟨s.lb, s.ub, s.m + 1⟩) ∨
    (SuccessProbability n k s.m t < alpha ∧ s.m ≠ s.lb ∧
      s₂ = ⟨s.m, s.ub, (s.ub + s.m) / 2⟩) := by
  simp only [msrStep] at h
  split_ifs at h with h1 h2 h3 h4 <;>
    first
      | exact Sum.noConfusion h
      | exact Or.inl ⟨h1, h2, (Sum.inl.inj h).symm⟩
      | exact Or.inr (Or.inl ⟨h3, h4, (Sum.inl.inj h).symm⟩)
      | exact Or.inr (Or.inr ⟨h3, h4, (Sum.inl.inj h).symm⟩)

/-- Along the loop all three locals stay at least `k`, and on exit the
returned probe is at least `k` with success probability at least `alpha`. -/
theorem msrLoop_post (n k t : ℕ) (alpha : ℚ) :
    ∀ fuel s m, msrLoop n k t alpha fuel s = some m →
      k ≤ s.lb → k ≤ s.ub → k ≤ s.m →
      k ≤ m ∧ alpha ≤ SuccessProbability n k m t
  | 0, _, _, h, _, _, _ => Option.noConfusion h
  | fuel + 1, s, m, h, hlb, hub, hm => by
    rw [msrLoop] at h
    cases hstep : msrStep n k t alpha s with
    | inr r =>
      rw [hstep] at h
      obtain ⟨hr, hprob⟩ := msrStep_inr n k t alpha s r hstep
      have hrm : r = m := Option.some.inj h
      subst hrm
      exact ⟨hr ▸ hm, hr ▸ hprob⟩
    | inl s₂ =>
      rw [hstep] at h
      have hcomp : k ≤ s₂.lb ∧ k ≤ s₂.ub ∧ k ≤ s₂.m := by
        rcases msrStep_inl_cases n k t alpha s s₂ hstep with
          ⟨_, _, h2⟩ | ⟨_, _, h2⟩ | ⟨_, _, h2⟩ <;> subst h2 <;>
          exact ⟨by dsimp only; omega, by dsimp only; omega, by dsimp only; omega⟩
      exact msrLoop_post n k t alpha fuel s₂ m h hcomp.1 hcomp.2.1 hcomp.2.2

/-- C3 (amended): whenever `MinimumSamplesReqd(n, k, tau, alpha)` with
`1 ≤ k ≤ n` does return a value `res`, then `k ≤ res ≤ n`, and
`res = min(m + 1, n)` for a final probe `m` whose success probability has
reached `alpha`. -/
theorem minimumSamplesReqd_post (n k : ℕ) (tau alpha : ℚ) (fuel : ℕ) (res : ℕ)
    (hk : 1 ≤ k) (hkn : k ≤ n)
    (h : MinimumSamplesReqd n k tau alpha fuel = MSRResult.ok res) :
    k ≤ res ∧ res ≤ n ∧ ∃ m, res = min (m + 1) n ∧
      alpha ≤ SuccessProbability n k m (Nat.ceil (tau * (n : ℚ) / 100)) := by
  unfold MinimumSamplesReqd at h
  by_cases ha : alpha ≤ 1
  · rw [if_pos ha] at h
    cases hloop : msrLoop n k (Nat.ceil (tau * (n : ℚ) / 100)) alpha fuel ⟨k, n, k⟩ with
    | none => rw [hloop] at h; exact absurd h (by simp)
    | some m =>
      rw [hloop] at h
      have hres : res = min (m + 1) n := (MSRResult.ok.inj h).symm
      obtain ⟨hkm, hprob⟩ :=
        msrLoop_post n k (Nat.ceil (tau * (n : ℚ) / 100)) alpha fuel ⟨k, n, k⟩ m hloop
          (le_refl k) hkn (le_refl k)
      exact ⟨by omega, by omega, m, hres, hprob⟩
  · rw [if_neg ha] at h
    exact absurd h (by simp)

/-- C3 counterexample: at `n = 2`, `k = 1`, `tau = 100`, `alpha = 1/2` the
solver returns `m' = 2` through the `ub < lb + 2` exit, and
`SuccessProbability(2, 1, m' - 1, t) = 1` is neither below `alpha` nor
within `0.001` of it. -/
theorem minimumSamplesReqd_post_counterexample :
    MinimumSamplesReqd 2 1 100 (1 / 2) 10 = MSRResult.ok 2 ∧
    ¬ (SuccessProbability 2 1 (2 - 1) (Nat.ceil ((100 : ℚ) * (2 : ℕ) / 100)) < 1 / 2 ∨
      |SuccessProbability 2 1 (2 - 1) (Nat.ceil ((100 : ℚ) * (2 : ℕ) / 100)) - 1 / 2| ≤ 1 / 1000) := by
  constructor
  · with_unfolding_all decide
  · with_unfolding_all decide

/-- Witness for C3 at `n = 4`, `k = 1`, `tau = 100`, `alpha = 1/2`: the
solver returns `2`, which lies in `[k, n]` and comes from a probe whose
success probability reached `alpha`. -/
theorem minimumSamplesReqd_post_witness :
    1 ≤ 2 ∧ 2 ≤ 4 ∧ ∃ m, 2 = min (m + 1) 4 ∧
      (1 / 2 : ℚ) ≤ SuccessProbability 4 1 m (Nat.ceil ((100 : ℚ) * (4 : ℕ) / 100)) :=
  minimumSamplesReqd_post 4 1 100 (1 / 2) 10 2 (by omega) (by omega)
    (by with_unfolding_all decide)

/-! ### The sample-size solver: termination analysis -/

/-- Helper for the measure: a strict shrink of the bracket width dominates
any change of the probe term. -/
theorem msrMeasure_lt_of_width_lt (n : ℕ) (s s₂ : SearchState)
    (hw : s₂.ub - s₂.lb < s.ub - s.lb) : msrMeasure n s₂ < msrMeasure n s := by
  unfold msrMeasure
  have h1 : (s₂.ub - s₂.lb) * (n + 1) + (n + 1) ≤ (s.ub - s.lb) * (n + 1) := by
    calc (s₂.ub - s₂.lb) * (n + 1) + (n + 1) = ((s₂.ub - s₂.lb) + 1) * (n + 1) := by ring
      _ ≤ (s.ub - s.lb) * (n + 1) := Nat.mul_le_mul_right _ (by omega)
  have h2 : n - s₂.m ≤ n := Nat.sub_le n s₂.m
  linarith

/-- A non-exiting step preserves the invariant and strictly decreases the
measure, provided the success probability has reached `alpha` at every
sample size `≥ n`. -/
theorem msrStep_preserves (n k t : ℕ) (alpha : ℚ)
    (H : ∀ j, n ≤ j → alpha ≤ SuccessProbability n k j t) (s s₂ : SearchState)
    (hInv : SolverInv n k t alpha s) (h : msrStep n k t alpha s = Sum.inl s₂) :
    SolverInv n k t alpha s₂ ∧ msrMeasure n s₂ < msrMeasure n s := by
  obtain ⟨hlm, hmu, hpu, hP⟩ := hInv
  rcases msrStep_inl_cases n k t alpha s s₂ h with
    ⟨h1, h2, h3⟩ | ⟨h1, h2, h3⟩ | ⟨h1, h2, h3⟩
  · -- `ub = m` tightening: `prob > alpha`, not close, bracket still wide.
    push_neg at h2
    obtain ⟨hfar, hwide⟩ := h2
    have hmub : s.m ≠ s.ub := by
      intro he
      have := hP he
      omega
    have hmlt : s.m < s.ub := lt_of_le_of_ne hmu hmub
    subst h3
    refine ⟨⟨?_, ?_, ?_, ?_⟩, ?_⟩
    · dsimp only; omega
    · dsimp only; omega
    · dsimp only
      exact le_of_lt h1
    · dsimp only; omega
    · exact msrMeasure_lt_of_width_lt n s _ (by dsimp only; omega)
  · -- `m == lb` increment: `prob < alpha` forces `m < n` and `m < ub`.
    have hmn : s.m < n := by
      by_contra hge
      exact absurd (H s.m (by omega)) (not_le.mpr h1)
    have hmub : s.m ≠ s.ub := by
      intro he
      rw [he] at h1
      exact absurd hpu (not_le.mpr h1)
    have hmlt : s.m < s.ub := lt_of_le_of_ne hmu hmub
    subst h3
    constructor
    · exact ⟨by dsimp only; omega, by dsimp only; omega, hpu, by dsimp only; omega⟩
    · unfold msrMeasure
      dsimp only
      have hsub : n - (s.m + 1) < n - s.m := by omega
      linarith
  · -- `lb = m` raising: `prob < alpha`, probe strictly inside the bracket.
    have hmub : s.m ≠ s.ub := by
      intro he
      rw [he] at h1
      exact absurd hpu (not_le.mpr h1)
    have hmlt : s.m < s.ub := lt_of_le_of_ne hmu hmub
    have hlblt : s.lb < s.m := lt_of_le_of_ne hlm (Ne.symm h2)
    subst h3
    refine ⟨⟨?_, ?_, hpu, ?_⟩, ?_⟩
    · dsimp only; omega
    · dsimp only; omega
    · dsimp only; omega
    · exact msrMeasure_lt_of_width_lt n s _ (by dsimp only; omega)

/-- With the saturation hypothesis, the loop exits once the fuel reaches the
measure. -/
theorem msrLoop_terminates (n k t : ℕ) (alpha : ℚ)
    (H : ∀ j, n ≤ j → alpha ≤ SuccessProbability n k j t) :
    ∀ fuel s, SolverInv n k t alpha s → msrMeasure n s ≤ fuel →
      ∃ m, msrLoop n k t alpha fuel s = some m
  | 0, s, _, hfuel => by
    exfalso
    unfold msrMeasure at hfuel
    omega
  | fuel + 1, s, hInv, hfuel => by
    cases hstep : msrStep n k t alpha s with
    | inr r =>
      refine ⟨r, ?_⟩
      rw [msrLoop, hstep]
    | inl s₂ =>
      obtain ⟨hInv₂, hdec⟩ := msrStep_preserves n k t alpha H s s₂ hInv hstep
      obtain ⟨m, hm⟩ := msrLoop_terminates n k t alpha H fuel s₂ hInv₂ (by omega)
      refine ⟨m, ?_⟩
      rw [msrLoop, hstep]
      exact hm

/-- When `k ≤ t ≤ n` (and `alpha ≤ 1`), every sample size `≥ n` is in the
saturation region, so its success probability has reached `alpha`. -/
theorem sp_alpha_of_k_le_t (n k t : ℕ) (alpha : ℚ) (hk : 1 ≤ k) (hkt : k ≤ t)
    (ht : t ≤ n) (ha : alpha ≤ 1) :
    ∀ j, n ≤ j → alpha ≤ SuccessProbability n k j t := by
  intro j hj
  by_cases hk1 : k = 1
  · subst hk1
    rw [sp_one_of_k1 n j t (by omega)]
    exact ha
  · rw [sp_one_of_sat n k j t (by omega) ht (by omega)]
    exact ha

/-- C5 (amended): for `1 ≤ k ≤ n`, `0 < tau ≤ 100`, `0 < alpha ≤ 1` and
additionally `k ≤ t` where `t = ceil(tau·n/100)` — i.e. when the success
probability saturates at or below the initial upper bound — the solver's
loop exits within `(n+1)(n+2)` iterations, a bound polynomial in the input
magnitude.  (The extra condition is necessary: see the counterexample.) -/
theorem minimumSamplesReqd_terminates (n k : ℕ) (tau alpha : ℚ)
    (hk : 1 ≤ k) (hkn : k ≤ n) (htau0 : 0 < tau) (htau : tau ≤ 100)
    (ha0 : 0 < alpha) (ha : alpha ≤ 1)
    (hkt : k ≤ Nat.ceil (tau * (n : ℚ) / 100)) :
    ∃ m, MinimumSamplesReqd n k tau alpha ((n + 1) * (n + 2)) = MSRResult.ok m := by
  have htn : Nat.ceil (tau * (n : ℚ) / 100) ≤ n := by
    apply Nat.ceil_le.mpr
    have hmul : tau * (n : ℚ) ≤ 100 * n := by
      apply mul_le_mul_of_nonneg_right htau (by positivity)
    have : tau * (n : ℚ) / 100 ≤ 100 * n / 100 := by linarith
    calc tau * (n : ℚ) / 100 ≤ 100 * n / 100 := this
      _ = n := by ring
  have H := sp_alpha_of_k_le_t n k (Nat.ceil (tau * (n : ℚ) / 100)) alpha hk hkt htn ha
  have hInv : SolverInv n k (Nat.ceil (tau * (n : ℚ) / 100)) alpha ⟨k, n, k⟩ :=
    ⟨le_refl k, hkn, H n (le_refl n), fun hkn2 => by dsimp only at hkn2 ⊢; omega⟩
  have hmeas : msrMeasure n ⟨k, n, k⟩ ≤ (n + 1) * (n + 2) := by
    unfold msrMeasure
    dsimp only
    have h1 : (n - k) * (n + 1) ≤ n * (n + 1) := Nat.mul_le_mul_right _ (by omega)
    have h2 : (n + 1) * (n + 2) = n * (n + 1) + 2 * n + 2 := by ring
    have h3 : n - k ≤ n := Nat.sub_le n k
    linarith
  obtain ⟨m, hm⟩ := msrLoop_terminates n k (Nat.ceil (tau * (n : ℚ) / 100)) alpha H
    ((n + 1) * (n + 2)) ⟨k, n, k⟩ hInv hmeas
  refine ⟨min (m + 1) n, ?_⟩
  unfold MinimumSamplesReqd
  rw [if_pos ha, hm]

/-- Witness for C5 at `n = 4`, `k = 1`, `tau = 100`, `alpha = 1/2`
(`t = 4 ≥ k`): the solver halts with the bound's fuel. -/
theorem minimumSamplesReqd_terminates_witness :
    ∃ m, MinimumSamplesReqd 4 1 100 (1 / 2) ((4 + 1) * (4 + 2)) = MSRResult.ok m :=
  minimumSamplesReqd_terminates 4 1 100 (1 / 2) (by omega) (by omega) (by norm_num)
    (by norm_num) (by norm_num) (by norm_num) (by with_unfolding_all decide)

/-- The three states of the cycle the solver enters at `n = 4`, `k = 3`,
`tau = 1` (`t = 1`), `alpha = 1`: no fuel suffices from any of them. -/
theorem msrLoop_cycle : ∀ fuel,
    msrLoop 4 3 1 1 fuel ⟨4, 4, 4⟩ = none ∧
    msrLoop 4 3 1 1 fuel ⟨4, 4, 5⟩ = none ∧
    msrLoop 4 3 1 1 fuel ⟨5, 4, 4⟩ = none
  | 0 => ⟨rfl, rfl, rfl⟩
  | fuel + 1 => by
    obtain ⟨ha, hb, hc⟩ := msrLoop_cycle fuel
    have sa : msrStep 4 3 1 1 ⟨4, 4, 4⟩ = Sum.inl ⟨4, 4, 5⟩ := by
      with_unfolding_all decide
    have sb : msrStep 4 3 1 1 ⟨4, 4, 5⟩ = Sum.inl ⟨5, 4, 4⟩ := by
      with_unfolding_all decide
    have sc : msrStep 4 3 1 1 ⟨5, 4, 4⟩ = Sum.inl ⟨4, 4, 4⟩ := by
      with_unfolding_all decide
    refine ⟨?_, ?_, ?_⟩
    · rw [msrLoop, sa]; exact hb
    · rw [msrLoop, sb]; exact hc
    · rw [msrLoop, sc]; exact ha

/-- From the initial state of the run at `n = 4`, `k = 3`, `t = 1`,
`alpha = 1` the loop reaches the cycle after two iterations, hence never
exits. -/
theorem msrLoop_diverges : ∀ fuel, msrLoop 4 3 1 1 fuel ⟨3, 4, 3⟩ = none
  | 0 => rfl
  | 1 => by with_unfolding_all decide
  | fuel + 2 => by
    have s0 : msrStep 4 3 1 1 ⟨3, 4, 3⟩ = Sum.inl ⟨3, 4, 4⟩ := by
      with_unfolding_all decide
    have s1 : msrStep 4 3 1 1 ⟨3, 4, 4⟩ = Sum.inl ⟨4, 4, 4⟩ := by
      with_unfolding_all decide
    rw [msrLoop, s0]
    show msrLoop 4 3 1 1 (fuel + 1) ⟨3, 4, 4⟩ = none
    rw [msrLoop, s1]
    exact (msrLoop_cycle fuel).1

/-- C5 counterexample: at `n = 4`, `k = 3`, `tau = 1`, `alpha = 1` — inside
the claimed domain `1 ≤ k ≤ n`, `0 < tau ≤ 100`, `0 < alpha ≤ 1` — the
`do … while` loop of `MinimumSamplesReqd` cycles through the states
`(lb,ub,m) = (4,4,4) → (4,4,5) → (5,4,4) → (4,4,4)` forever: no finite
number of iterations makes it return. -/
theorem minimumSamplesReqd_diverges :
    ¬ ∃ fuel m, MinimumSamplesReqd 4 3 1 1 fuel = MSRResult.ok m := by
  rintro ⟨fuel, m, h⟩
  have ht : Nat.ceil ((1 : ℚ) * (4 : ℕ) / 100) = 1 := by with_unfolding_all rfl
  unfold MinimumSamplesReqd at h
  rw [if_pos (by norm_num : (1 : ℚ) ≤ 1), ht, msrLoop_diverges fuel] at h
  exact MSRResult.noConfusion h

/-! ### The sampler -/

/-- The tally loop succeeds when every draw is in range, and adds the draw
multiplicities to the vector. -/
theorem tallyLoop_eq (rangeUpperBound : ℕ) :
    ∀ (draws : List ℕ) (sp : ℕ → ℕ), (∀ d ∈ draws, d < rangeUpperBound) →
      tallyLoop rangeUpperBound draws sp = some (fun i => sp i + draws.count i)
  | [], sp, _ => congrArg some (funext fun i => by simp)
  | d :: rest, sp, h => by
    rw [tallyLoop, if_pos (h d (List.mem_cons_self d rest)),
      tallyLoop_eq rangeUpperBound rest _ (fun x hx => h x (List.mem_cons_of_mem d hx))]
    refine congrArg some (funext fun i => ?_)
    by_cases hid : i = d
    · subst hid
      rw [Function.update_same, List.count_cons]
      simp
      omega
    · rw [Function.update_noteq hid, List.count_cons]
      simp [Ne.symm hid]

/-- C7: for any draw sequence within range (the contract of
`math::RandInt`), `ObtainDistinctSamples` succeeds and produces a strictly
increasing list holding exactly the indices drawn at least once; hence all
elements are in `[0, rangeUpperBound)`, there are at most
`min(numSamples, rangeUpperBound)` of them, and `numSamples = 0` yields the
empty result. -/
theorem obtainDistinctSamples_spec (numSamples rangeUpperBound : ℕ)
    (draws prior : List ℕ) (hrub : 1 ≤ rangeUpperBound)
    (hlen : draws.length = numSamples)
    (hrange : ∀ d ∈ draws, d < rangeUpperBound) :
    ∃ l, ObtainDistinctSamples numSamples rangeUpperBound draws prior = some l ∧
      List.Pairwise (· < ·) l ∧
      (∀ i, i ∈ l ↔ i ∈ draws) ∧
      (∀ i ∈ l, i < rangeUpperBound) ∧
      l.length ≤ min numSamples rangeUpperBound ∧
      (numSamples = 0 → l = []) := by
  have htally : tallyLoop rangeUpperBound draws (fun _ => 0)
      = some (fun i => draws.count i) := by
    rw [tallyLoop_eq rangeUpperBound draws (fun _ => 0) hrange]
    exact congrArg some (funext fun i => by simp)
  refine ⟨(List.range rangeUpperBound).filter (fun i => decide (0 < draws.count i)),
    ?_, ?_, ?_, ?_, ?_, ?_⟩
  · unfold ObtainDistinctSamples
    rw [if_pos hlen, htally]
  · exact (List.pairwise_lt_range rangeUpperBound).filter _
  · intro i
    rw [List.mem_filter, List.mem_range]
    constructor
    · rintro ⟨_, hpos⟩
      exact List.count_pos_iff.mp (by simpa using hpos)
    · intro hmem
      exact ⟨hrange i hmem, by simpa using List.count_pos_iff.mpr hmem⟩
  · intro i hi
    rw [List.mem_filter, List.mem_range] at hi
    exact hi.1
  · have hnodup : ((List.range rangeUpperBound).filter
        (fun i => decide (0 < draws.count i))).Nodup :=
      (List.nodup_range rangeUpperBound).filter _
    have hsub : ((List.range rangeUpperBound).filter
        (fun i => decide (0 < draws.count i))) ⊆ draws := by
      intro i hi
      rw [List.mem_filter] at hi
      exact List.count_pos_iff.mp (by simpa using hi.2)
    have h1 : ((List.range rangeUpperBound).filter
        (fun i => decide (0 < draws.count i))).length ≤ draws.length :=
      (hnodup.subperm hsub).length_le
    have h2 : ((List.range rangeUpperBound).filter
        (fun i => decide (0 < draws.count i))).length ≤ rangeUpperBound := by
      have := List.length_filter_le (fun i => decide (0 < draws.count i))
        (List.range rangeUpperBound)
      simpa using this
    omega
  · intro h0
    have hnil : draws = [] := List.length_eq_zero.mp (by omega)
    subst hnil
    simp

/-- Witness for C7: three draws `[2, 0, 2]` into range `4` yield the sorted
distinct indices (concretely `[0, 2]`), regardless of the previous output
contents `[9]`. -/
theorem obtainDistinctSamples_spec_witness :
    ∃ l, ObtainDistinctSamples 3 4 [2, 0, 2] [9] = some l ∧
      List.Pairwise (· < ·) l ∧
      (∀ i, i ∈ l ↔ i ∈ [2, 0, 2]) ∧
      (∀ i ∈ l, i < 4) ∧
      l.length ≤ min 3 4 ∧
      (3 = 0 → l = []) :=
  obtainDistinctSamples_spec 3 4 [2, 0, 2] [9] (by omega) (by decide)
    (by decide)

/-- C8 counterexample: the source contains no validation of
`rangeUpperBound`; the call with `rangeUpperBound = 0` and `numSamples = 0`
silently returns the empty result instead of an invalid-argument error. -/
theorem obtainDistinctSamples_zero_counterexample :
    ObtainDistinctSamples 0 0 [] [] = some [] := by
  with_unfolding_all rfl

/-- C8 (amended): `ObtainDistinctSamples` never rejects
`rangeUpperBound = 0` explicitly: with `numSamples = 0` it silently
produces the empty result, and with `numSamples > 0` every draw indexes the
empty tally vector out of bounds — undefined behaviour, modelled as
`none`. -/
theorem obtainDistinctSamples_zero_range (numSamples : ℕ) (draws prior : List ℕ) :
    (numSamples = 0 → draws = [] → ObtainDistinctSamples numSamples 0 draws prior = some []) ∧
    (0 < numSamples → ObtainDistinctSamples numSamples 0 draws prior = none) := by
  constructor
  · rintro rfl rfl
    with_unfolding_all rfl
  · intro hpos
    cases draws with
    | nil =>
      unfold ObtainDistinctSamples
      rw [if_neg (by simp; omega)]
    | cons d rest =>
      unfold ObtainDistinctSamples
      by_cases hlen : (d :: rest).length = numSamples
      · rw [if_pos hlen, tallyLoop, if_neg (by omega)]
      · rw [if_neg hlen]

/-- Witness for C8: `numSamples = 0` silently yields `some []` (with junk
prior contents `[7]`), `numSamples = 2` with a draw yields the undefined
marker. -/
theorem obtainDistinctSamples_zero_range_witness :
    ObtainDistinctSamples 0 0 [] [7] = some [] ∧
      ObtainDistinctSamples 2 0 [3] [7] = none :=
  ⟨(obtainDistinctSamples_zero_range 0 [] [7]).1 rfl rfl,
   (obtainDistinctSamples_zero_range 2 [3] [7]).2 (by omega)⟩

/-- C10: the value stored into the output parameter is independent of its
previous contents — the tally vector is freshly zero-initialised and the
output is wholly overwritten, so the embedding never reads `distinctSamples`. -/
theorem obtainDistinctSamples_frame (numSamples rangeUpperBound : ℕ)
    (draws p₁ p₂ : List ℕ) :
    ObtainDistinctSamples numSamples rangeUpperBound draws p₁ =
      ObtainDistinctSamples numSamples rangeUpperBound draws p₂ := rfl

/-- C9: the `Log::Assert(alpha <= 1.0)` precondition is fatal: with
`alpha > 1` the operation aborts without producing a result, and with
`alpha ≤ 1` the assertion passes and the call never reports an assertion
failure. -/
theorem minimumSamplesReqd_assert (n k : ℕ) (tau alpha : ℚ) (fuel : ℕ) :
    (1 < alpha → MinimumSamplesReqd n k tau alpha fuel = MSRResult.assertFailed) ∧
    (alpha ≤ 1 → MinimumSamplesReqd n k tau alpha fuel ≠ MSRResult.assertFailed) := by
  constructor
  · intro h
    unfold MinimumSamplesReqd
    rw [if_neg (not_le.mpr h)]
  · intro h
    unfold MinimumSamplesReqd
    rw [if_pos h]
    cases msrLoop n k (Nat.ceil (tau * (n : ℚ) / 100)) alpha fuel ⟨k, n, k⟩ <;> simp

/-- Witness for C9: `alpha = 2` aborts, `alpha = 1/2` does not. -/
theorem minimumSamplesReqd_assert_witness :
    MinimumSamplesReqd 5 2 50 2 7 = MSRResult.assertFailed ∧
      MinimumSamplesReqd 5 2 50 (1 / 2) 7 ≠ MSRResult.assertFailed :=
  ⟨(minimumSamplesReqd_assert 5 2 50 2 7).1 (by norm_num),
   (minimumSamplesReqd_assert 5 2 50 (1 / 2) 7).2 (by norm_num)⟩

end RAUtil
